import Mathlib

/-!
Verification of the PlotLines book-graph pipeline (`book_graph.py`).

The source builds, from an ISBN, a set of up to five theme tags
(`get_book_data_from_isbn`), then finds related books per tag
(`find_books_by_subject`), and assembles a bipartite book/theme graph
(`build_similarity_graph`).  Network fetches and the sentence-embedding
scorer are external collaborators; they are modelled as explicit oracle
parameters (`Fetch`, `QueryResult`, `score`).  Strings are Lean `String`s,
with Python's `lower` / `strip` / substring `in` re-implemented over the
underlying character lists.
-/

set_option maxHeartbeats 1000000

namespace PlotLines

/-- Python `str.lower()` (per-character lowering). -/
def strLower (s : String) : String := ⟨s.data.map Char.toLower⟩

/-- Python `str.strip()`: drop whitespace from both ends. -/
def strTrim (s : String) : String :=
  ⟨((s.data.dropWhile Char.isWhitespace).reverse.dropWhile Char.isWhitespace).reverse⟩

/-- Substring occurrence on character lists: `containsSub pat hay` is true
iff `pat` occurs contiguously inside `hay` (Python's `pat in hay`). -/
def containsSub (pat : List Char) : List Char → Bool
  | [] => pat.isEmpty
  | c :: t => pat.isPrefixOf (c :: t) || containsSub pat t

/-- Python `pat in hay` for strings. -/
def strContainsPy (hay pat : String) : Bool := containsSub pat.data hay.data

/-- Python `" ".join(l)` (for an arbitrary separator). -/
def joinWith (sep : String) : List String → String
  | [] => ""
  | [s] => s
  | s :: rest => s ++ sep ++ joinWith sep rest

/-- The module-level blocklist of overly broad subjects. -/
def blocklist : List String :=
  ["fiction", "literature", "novel", "story", "books and reading",
   "english fiction", "american fiction"]

/-- `tag.lower().strip()`, the key used for blocklist membership and
de-duplication throughout tag resolution. -/
def tagKey (t : String) : String := strTrim (strLower t)

/-- The `country_tags` collection loop: subjects whose lowered, stripped text
contains some lowered country keyword as a substring. -/
def countryTags (ck : List String) : List String → List String
  | [] => []
  | t :: rest =>
    if ck.any (fun c => strContainsPy (tagKey t) (strLower c)) then
      t :: countryTags ck rest
    else countryTags ck rest

/-- The source's `similarity_threshold = 0.50`, given as a literal `Rat`
structure value so that comparisons against it reduce in the kernel. -/
def similarity_threshold : ℚ := ⟨1, 2, by decide, Nat.coprime_one_left 2⟩

theorem similarity_threshold_eq : similarity_threshold = 1/2 := by
  have h : ((1:ℚ)/2).num = 1 ∧ ((1:ℚ)/2).den = 2 := by norm_num
  apply Rat.ext <;> simp [similarity_threshold, h.1, h.2]

/-- The semantic filter loop: skip blocklisted subjects, accept a subject when
its best similarity against the theme bank (the oracle `score`) is `≥ 0.50`.
A scoring failure in the source yields `max_sim = 0.0`, which the total
oracle subsumes. -/
def semanticTags (score : String → ℚ) : List String → List String
  | [] => []
  | t :: rest =>
    if blocklist.contains (tagKey t) then semanticTags score rest
    else if similarity_threshold ≤ score t then t :: semanticTags score rest
    else semanticTags score rest

/-- The first `final_tags` loop: merge `filtered_subjects + country_tags`,
de-duplicating on `tagKey`, breaking once five tags are collected (the break
is checked after every iteration, as in the source). -/
def mergeLoop : List String → List String → List String → List String × List String
  | [], acc, seen => (acc, seen)
  | t :: rest, acc, seen =>
    if seen.contains (tagKey t) then
      if 5 ≤ acc.length then (acc, seen) else mergeLoop rest acc seen
    else
      if 5 ≤ (acc ++ [t]).length then (acc ++ [t], seen ++ [tagKey t])
      else mergeLoop rest (acc ++ [t]) (seen ++ [tagKey t])

/-- The backfill loops: append raw subjects not yet seen and not in `block`,
breaking after an append reaches five.  The second backfill loop of the
source is this with `block = blocklist`; the last-resort loop is this with
`block = []`. -/
def backfillLoop (block : List String) :
    List String → List String → List String → List String × List String
  | [], acc, seen => (acc, seen)
  | t :: rest, acc, seen =>
    if seen.contains (tagKey t) || block.contains (tagKey t) then
      backfillLoop block rest acc seen
    else
      if 5 ≤ (acc ++ [t]).length then (acc ++ [t], seen ++ [tagKey t])
      else backfillLoop block rest (acc ++ [t]) (seen ++ [tagKey t])

/-- One guarded backfill tier: `if len(final_tags) < 5: <loop>`. -/
def backfillStep (block raw : List String) (p : List String × List String) :
    List String × List String :=
  if p.1.length < 5 then backfillLoop block raw p.1 p.2 else p

/-- Lines 121–159 of the source past the two filter loops: merge, the two
guarded backfill tiers, and the final `[:5]` truncation. -/
def finishTags (sems ctags raw : List String) : List String :=
  (backfillStep [] raw (backfillStep blocklist raw
    (mergeLoop (sems ++ ctags) [] []))).1.take 5

/-- Full tag resolution (`final_tags` of `get_book_data_from_isbn`) from the
raw subject list, the country keywords and the semantic-score oracle. -/
def resolveTags (raw ck : List String) (score : String → ℚ) : List String :=
  finishTags (semanticTags score raw) (countryTags ck raw) raw

/-- The fiction heuristic: `" ".join(raw_subjects).lower()` contains
`"fiction"` but not `"nonfiction"`. -/
def isFictionHeuristic (raw : List String) : Bool :=
  strContainsPy (strLower (joinWith " " raw)) "fiction" &&
    !(strContainsPy (strLower (joinWith " " raw)) "nonfiction")

/-- Outcome of one HTTP GET: a raised exception, or a status code with a
parsed JSON body of shape `α`. -/
inductive Fetch (α : Type) where
  | err : Fetch α
  | resp : Nat → α → Fetch α
deriving DecidableEq

/-- One entry of the edition record's `works` array. -/
structure WorkRef where
  key : Option String
deriving DecidableEq

/-- The fields of the edition JSON that the source reads.  A present but
empty (falsy) title is `some ""`. -/
structure EditionData where
  title : Option String
  works : List WorkRef
deriving DecidableEq

/-- The fields of the work JSON that the source reads; a missing or null
`subjects` entry is the empty list. -/
structure WorkData where
  subjects : List String
deriving DecidableEq

def fallbackTitle (isbn : String) : String := "Unknown Title (" ++ isbn ++ ")"

/-- `(book_data.get("title") or fallback).strip()`. -/
def resolvedTitle (isbn : String) (ed : EditionData) : String :=
  strTrim (match ed.title with
    | none => fallbackTitle isbn
    | some t => if t = "" then fallbackTitle isbn else t)

/-- `get_book_data_from_isbn`: the returned quadruple
`(title, final_tags, original_title_lower, is_fiction)`, with the two
network round-trips passed as oracles.  A Python `None` title is `none`. -/
def get_book_data_from_isbn (isbn : String) (ck : List String)
    (score : String → ℚ) (ef : Fetch EditionData) (wf : Fetch WorkData) :
    Option String × List String × String × Bool :=
  match ef with
  | .err => (none, [], "", false)
  | .resp code bd =>
    if code ≠ 200 then (none, [], "", false)
    else
      let title := resolvedTitle isbn bd
      match bd.works with
      | [] => (some title, [], strLower title, false)
      | w :: _ =>
        match w.key with
        | none => (some title, [], strLower title, false)
        | some _ =>
          match wf with
          | .err => (some title, [], strLower title, false)
          | .resp wcode wd =>
            if wcode ≠ 200 then (some title, [], strLower title, false)
            else
              (some title, resolveTags wd.subjects ck score, strLower title,
                isFictionHeuristic wd.subjects)

/-- One search-result document, with the fields the source reads. -/
structure Doc where
  title : Option String
  author_name : Option (List String)
  edition_count : Int
  subject : Option (List String)
deriving DecidableEq

/-- Outcome of one catalog search query: an exception / non-200 response
(both `continue` in the source), or a parsed `docs` array. -/
inductive QueryResult where
  | fail : QueryResult
  | docs : List Doc → QueryResult
deriving DecidableEq

/-- `(doc.get("title") or "").strip()`. -/
def mkTitle (d : Doc) : String :=
  strTrim (match d.title with | none => "" | some t => t)

/-- `(doc.get("author_name") or ["Unknown"])[0]` (an empty list is falsy). -/
def mkAuthor (d : Doc) : String :=
  match d.author_name with
  | none => "Unknown"
  | some [] => "Unknown"
  | some (a :: _) => a

/-- `" ".join(doc.get("subject", [])).lower() if "subject" in doc else ""`. -/
def mkSubjectText (d : Doc) : String :=
  match d.subject with
  | none => ""
  | some l => strLower (joinWith " " l)

/-- The soft genre-alignment rejection test applied to a candidate's joined,
lowercased subject text. -/
def genreReject (fic : Bool) (s : String) : Bool :=
  if s = "" then false
  else if fic then !(strContainsPy s "fiction" || strContainsPy s "novel")
  else strContainsPy s "fiction"

/-- The inner `for doc in docs` loop of `find_books_by_subject`, threading
`results` and `seen_titles` and breaking once `max_books` results are
accepted. -/
def procDocs (otl : String) (fic : Bool) (maxb : Nat) :
    List Doc → List String → List String → List String × List String
  | [], results, seen => (results, seen)
  | d :: rest, results, seen =>
    let title := mkTitle d
    if title = "" then procDocs otl fic maxb rest results seen
    else if strLower title = otl then procDocs otl fic maxb rest results seen
    else if seen.contains (strLower title) then procDocs otl fic maxb rest results seen
    else if d.edition_count < 1 then procDocs otl fic maxb rest results seen
    else if genreReject fic (mkSubjectText d) then procDocs otl fic maxb rest results seen
    else
      if maxb ≤ (results ++ [title ++ " by " ++ mkAuthor d]).length then
        (results ++ [title ++ " by " ++ mkAuthor d], seen ++ [strLower title])
      else
        procDocs otl fic maxb rest (results ++ [title ++ " by " ++ mkAuthor d])
          (seen ++ [strLower title])

/-- The outer `for query in urls` loop: a failed query contributes nothing;
after each processed query the loop breaks once enough results exist. -/
def queryLoop (otl : String) (fic : Bool) (maxb : Nat) :
    List QueryResult → List String → List String → List String × List String
  | [], results, seen => (results, seen)
  | .fail :: rest, results, seen => queryLoop otl fic maxb rest results seen
  | .docs ds :: rest, results, seen =>
    let rs := procDocs otl fic maxb ds results seen
    if maxb ≤ rs.1.length then rs else queryLoop otl fic maxb rest rs.1 rs.2

/-- `find_books_by_subject`: the query responses (one per URL built for the
tag) are passed as oracles; returns `results[:max_books]`. -/
def find_books_by_subject (qs : List QueryResult) (otl : String) (fic : Bool)
    (maxb : Nat) : List String :=
  (queryLoop otl fic maxb qs [] []).1.take maxb

/-- The `networkx` graph: nodes carry their `type` attribute, edges are kept
in insertion order, one per unordered endpoint pair. -/
structure Graph where
  nodes : List (String × String)
  edges : List (String × String)
deriving DecidableEq

/-- `G.add_node(n, type=ty)`: re-adding an existing node overwrites its
`type` attribute. -/
def addNode (g : Graph) (n ty : String) : Graph :=
  if g.nodes.any (fun p => p.1 = n) then
    ⟨g.nodes.map (fun p => if p.1 = n then (n, ty) else p), g.edges⟩
  else ⟨g.nodes ++ [(n, ty)], g.edges⟩

/-- `G.add_edge(u, v)` on an undirected graph (both endpoints always exist
already at every call site of the source). -/
def addEdge (g : Graph) (u v : String) : Graph :=
  if g.edges.contains (u, v) || g.edges.contains (v, u) then g
  else ⟨g.nodes, g.edges ++ [(u, v)]⟩

/-- The country/era keyword table of `build_similarity_graph`. -/
def country_keywords : List String :=
  ["Japan", "Canada", "United States", "England", "France",
   "Germany", "China", "India", "Mexico", "Italy", "Russia", "Korea"]

/-- First loop of graph assembly: a theme node and a root–theme edge per tag. -/
def buildPhase1 (g : Graph) (title : String) : List String → Graph
  | [] => g
  | tag :: rest => buildPhase1 (addEdge (addNode g tag "theme") title tag) title rest

/-- The `for book in related_books` loop: new books (tracked in `seen_books`)
get a book node and an edge to the current tag. -/
def addRelated (tag : String) : List String → Graph → List String → Graph × List String
  | [], g, seen => (g, seen)
  | book :: rest, g, seen =>
    if seen.contains book then addRelated tag rest g seen
    else addRelated tag rest (addEdge (addNode g book "book") book tag) (seen ++ [book])

/-- Second loop of graph assembly: related books per tag, with the query
responses per tag given by the oracle `tq`. -/
def buildPhase2 (otl : String) (fic : Bool) (tq : String → List QueryResult) :
    List String → Graph → List String → Graph
  | [], g, _ => g
  | tag :: rest, g, seen =>
    let rs := addRelated tag (find_books_by_subject (tq tag) otl fic 3) g seen
    buildPhase2 otl fic tq rest rs.1 rs.2

/-- `build_similarity_graph`: `none` models the Python `(None, "")` failure
return. -/
def build_similarity_graph (isbn : String) (score : String → ℚ)
    (ef : Fetch EditionData) (wf : Fetch WorkData)
    (tq : String → List QueryResult) : Option (Graph × String) :=
  match get_book_data_from_isbn isbn country_keywords score ef wf with
  | (none, _, _, _) => none
  | (some title, tags, otl, fic) =>
    if title = "" then none
    else
      let g1 := buildPhase1 (addNode ⟨[], []⟩ title "book") title tags
      some (buildPhase2 otl fic tq tags g1 [title], title)

/-- Attribute lookup `G.nodes[n]["type"]`. -/
def nodeType (g : Graph) (n : String) : Option String :=
  (g.nodes.find? (fun p => p.1 == n)).map (fun p => p.2)

/-- An edge between a Book node and a Theme node (in either orientation). -/
def GoodEdge (g : Graph) (e : String × String) : Prop :=
  (nodeType g e.1 = some "book" ∧ nodeType g e.2 = some "theme") ∨
  (nodeType g e.1 = some "theme" ∧ nodeType g e.2 = some "book")

instance (g : Graph) (e : String × String) : Decidable (GoodEdge g e) := by
  unfold GoodEdge; infer_instance

/-! Lemmas about tag resolution -/

theorem contains_iff (l : List String) (x : String) : l.contains x = true ↔ x ∈ l :=
  List.elem_iff

/-- Distinctness of a tag list under case-insensitive, trimmed comparison. -/
def DK (l : List String) : Prop := List.Pairwise (fun a b => tagKey a ≠ tagKey b) l

theorem mergeLoop_app (items : List String) :
    ∀ acc seen, ∃ ext, (mergeLoop items acc seen).1 = acc ++ ext := by
  induction items with
  | nil => exact fun acc seen => ⟨[], by simp [mergeLoop]⟩
  | cons t rest ih =>
    intro acc seen
    simp only [mergeLoop]
    split
    · split
      · exact ⟨[], by simp⟩
      · exact ih acc seen
    · split
      · exact ⟨[t], rfl⟩
      · obtain ⟨e, he⟩ := ih (acc ++ [t]) (seen ++ [tagKey t])
        exact ⟨[t] ++ e, by simp [he]⟩

theorem backfillLoop_app (block : List String) (items : List String) :
    ∀ acc seen, ∃ ext, (backfillLoop block items acc seen).1 = acc ++ ext := by
  induction items with
  | nil => exact fun acc seen => ⟨[], by simp [backfillLoop]⟩
  | cons t rest ih =>
    intro acc seen
    simp only [backfillLoop]
    split
    · exact ih acc seen
    · split
      · exact ⟨[t], rfl⟩
      · obtain ⟨e, he⟩ := ih (acc ++ [t]) (seen ++ [tagKey t])
        exact ⟨[t] ++ e, by simp [he]⟩

theorem backfillStep_app (block raw : List String) (p : List String × List String) :
    ∃ ext, (backfillStep block raw p).1 = p.1 ++ ext := by
  unfold backfillStep
  split
  · exact backfillLoop_app block raw p.1 p.2
  · exact ⟨[], by simp⟩

theorem mergeLoop_len (items : List String) :
    ∀ acc seen, acc.length < 5 → (mergeLoop items acc seen).1.length ≤ 5 := by
  induction items with
  | nil => intro acc seen h; simpa [mergeLoop] using Nat.le_of_lt h
  | cons t rest ih =>
    intro acc seen h
    simp only [mergeLoop]
    split
    · split
      · exact Nat.le_of_lt h
      · exact ih acc seen h
    · rename_i hc
      split
      · rename_i h5
        simp only [List.length_append, List.length_cons, List.length_nil] at h5 ⊢
        omega
      · rename_i h5
        apply ih
        simp only [List.length_append, List.length_cons, List.length_nil] at h5 ⊢
        omega

theorem backfillLoop_len (block items : List String) :
    ∀ acc seen, acc.length < 5 → (backfillLoop block items acc seen).1.length ≤ 5 := by
  induction items with
  | nil => intro acc seen h; simpa [backfillLoop] using Nat.le_of_lt h
  | cons t rest ih =>
    intro acc seen h
    simp only [backfillLoop]
    split
    · exact ih acc seen h
    · split
      · rename_i h5
        simp only [List.length_append, List.length_cons, List.length_nil] at h5 ⊢
        omega
      · rename_i h5
        apply ih
        simp only [List.length_append, List.length_cons, List.length_nil] at h5 ⊢
        omega

theorem backfillStep_len (block raw : List String) (p : List String × List String)
    (h : p.1.length ≤ 5) : (backfillStep block raw p).1.length ≤ 5 := by
  unfold backfillStep
  split
  · rename_i h5; exact backfillLoop_len block raw p.1 p.2 h5
  · exact h

theorem mergeLoop_inv (items : List String) :
    ∀ acc seen, seen = acc.map tagKey → DK acc →
      (mergeLoop items acc seen).2 = (mergeLoop items acc seen).1.map tagKey ∧
        DK (mergeLoop items acc seen).1 := by
  induction items with
  | nil => intro acc seen hs hd; simpa [mergeLoop] using ⟨hs, hd⟩
  | cons t rest ih =>
    intro acc seen hs hd
    have hnew : ¬ seen.contains (tagKey t) = true → ∀ a ∈ acc, tagKey a ≠ tagKey t := by
      intro hc a ha he
      exact hc ((contains_iff seen (tagKey t)).mpr (hs ▸ List.mem_map.mpr ⟨a, ha, he⟩))
    have hdk2 : ¬ seen.contains (tagKey t) = true → DK (acc ++ [t]) := by
      intro hc
      refine List.pairwise_append.mpr ⟨hd, List.pairwise_singleton _ t, ?_⟩
      intro a ha b hb
      rw [List.mem_singleton.mp hb]
      exact hnew hc a ha
    simp only [mergeLoop]
    split
    · split
      · exact ⟨hs, hd⟩
      · exact ih acc seen hs hd
    · rename_i hc
      split
      · exact ⟨by simp [hs], hdk2 hc⟩
      · exact ih (acc ++ [t]) (seen ++ [tagKey t]) (by simp [hs]) (hdk2 hc)

theorem backfillLoop_inv (block items : List String) :
    ∀ acc seen, seen = acc.map tagKey → DK acc →
      (backfillLoop block items acc seen).2 = (backfillLoop block items acc seen).1.map tagKey ∧
        DK (backfillLoop block items acc seen).1 := by
  induction items with
  | nil => intro acc seen hs hd; simpa [backfillLoop] using ⟨hs, hd⟩
  | cons t rest ih =>
    intro acc seen hs hd
    have hnew : ¬ (seen.contains (tagKey t) || block.contains (tagKey t)) = true →
        ∀ a ∈ acc, tagKey a ≠ tagKey t := by
      intro hc a ha he
      apply hc
      refine Bool.or_eq_true_iff.mpr (Or.inl ?_)
      exact (contains_iff seen (tagKey t)).mpr (hs ▸ List.mem_map.mpr ⟨a, ha, he⟩)
    have hdk2 : ¬ (seen.contains (tagKey t) || block.contains (tagKey t)) = true →
        DK (acc ++ [t]) := by
      intro hc
      refine List.pairwise_append.mpr ⟨hd, List.pairwise_singleton _ t, ?_⟩
      intro a ha b hb
      rw [List.mem_singleton.mp hb]
      exact hnew hc a ha
    simp only [backfillLoop]
    split
    · exact ih acc seen hs hd
    · rename_i hc
      split
      · exact ⟨by simp [hs], hdk2 hc⟩
      · exact ih (acc ++ [t]) (seen ++ [tagKey t]) (by simp [hs]) (hdk2 hc)

theorem backfillStep_inv (block raw : List String) (p : List String × List String)
    (hs : p.2 = p.1.map tagKey) (hd : DK p.1) :
    (backfillStep block raw p).2 = (backfillStep block raw p).1.map tagKey ∧
      DK (backfillStep block raw p).1 := by
  unfold backfillStep
  split
  · exact backfillLoop_inv block raw p.1 p.2 hs hd
  · exact ⟨hs, hd⟩

theorem resolveTags_inv (raw ck : List String) (score : String → ℚ) :
    DK (resolveTags raw ck score) := by
  unfold resolveTags finishTags
  have h1 := mergeLoop_inv (semanticTags score raw ++ countryTags ck raw) [] [] rfl
    List.Pairwise.nil
  have h2 := backfillStep_inv blocklist raw _ h1.1 h1.2
  have h3 := backfillStep_inv [] raw _ h2.1 h2.2
  exact List.Pairwise.sublist (List.take_sublist 5 _) h3.2

/-! Claims C1 and C2 -/

/-- C1. For every sequence of raw subject strings, the final tag list
returned by tag resolution contains at most 5 entries, and no two entries
are equal under case-insensitive, trimmed comparison. -/
theorem C1_final_tags_bounded_and_distinct (raw ck : List String) (score : String → ℚ) :
    (resolveTags raw ck score).length ≤ 5 ∧
      List.Pairwise (fun a b => tagKey a ≠ tagKey b) (resolveTags raw ck score) :=
  ⟨by unfold resolveTags finishTags; exact List.length_take_le 5 _,
   resolveTags_inv raw ck score⟩

theorem resolveTags_of_nil (ck : List String) (score : String → ℚ) :
    resolveTags [] ck score = [] := rfl

theorem resolveTags_ne_nil (raw ck : List String) (score : String → ℚ)
    (h : raw ≠ []) : resolveTags raw ck score ≠ [] := by
  obtain ⟨t, rest, rfl⟩ := List.exists_cons_of_ne_nil h
  unfold resolveTags finishTags
  intro hnil
  rw [List.take_eq_nil_iff] at hnil
  rcases hnil with h5 | hnil
  · exact (by decide : (5:Nat) ≠ 0) h5
  · -- peel the last-resort tier
    have h1 := mergeLoop_inv (semanticTags score (t :: rest) ++ countryTags ck (t :: rest))
      [] [] rfl List.Pairwise.nil
    have h2 := backfillStep_inv blocklist (t :: rest) _ h1.1 h1.2
    obtain ⟨e3, he3⟩ := backfillStep_app [] (t :: rest)
      (backfillStep blocklist (t :: rest)
        (mergeLoop (semanticTags score (t :: rest) ++ countryTags ck (t :: rest)) [] []))
    -- from the final result being empty, the second tier's accumulator is empty
    have hp2 : (backfillStep blocklist (t :: rest)
        (mergeLoop (semanticTags score (t :: rest) ++ countryTags ck (t :: rest)) [] [])).1
        = [] := by
      have := he3 ▸ hnil
      exact List.append_eq_nil.mp this |>.1
    have hp2s : (backfillStep blocklist (t :: rest)
        (mergeLoop (semanticTags score (t :: rest) ++ countryTags ck (t :: rest)) [] [])).2
        = [] := by rw [h2.1, hp2]; rfl
    -- so the last-resort tier starts from ([], []) and must place `t`
    rw [backfillStep, hp2, hp2s] at hnil
    simp only [List.length_nil, Nat.zero_lt_succ, if_true] at hnil
    obtain ⟨e, he⟩ := backfillLoop_app [] rest [t] [tagKey t]
    simp [backfillLoop, he] at hnil

/-- C2. The final tag list returned by tag resolution is empty if and
only if the raw subject list is empty: a non-empty raw subject list always
yields at least one tag (backfill guarantee), and an empty one yields the
empty list. -/
theorem C2_final_tags_empty_iff (raw ck : List String) (score : String → ℚ) :
    resolveTags raw ck score = [] ↔ raw = [] := by
  constructor
  · intro h
    by_contra hne
    exact resolveTags_ne_nil raw ck score hne h
  · intro h
    rw [h]
    exact resolveTags_of_nil ck score

/-! Reaching the final tag list through the merge loop (C8, C3) -/

/-- Number of tags the merge loop would place from a list of pending
subjects, given the keys already seen. -/
def dedupCount (seen : List String) : List String → Nat
  | [] => 0
  | u :: rest =>
    if seen.contains (tagKey u) then dedupCount seen rest
    else dedupCount (seen ++ [tagKey u]) rest + 1

theorem mergeLoop_reach (t : String) (pre : List String) :
    ∀ post acc seen, seen = acc.map tagKey →
      (∀ u ∈ acc, tagKey u ≠ tagKey t) →
      (∀ u ∈ pre, tagKey u ≠ tagKey t) →
      acc.length + dedupCount seen pre < 5 →
      t ∈ (mergeLoop (pre ++ t :: post) acc seen).1 := by
  induction pre with
  | nil =>
    intro post acc seen hs hacc _ hroom
    have hc : ¬ seen.contains (tagKey t) = true := by
      intro hc
      obtain ⟨u, hu, he⟩ := List.mem_map.mp (hs ▸ (contains_iff seen (tagKey t)).mp hc)
      exact hacc u hu he
    rw [List.nil_append]
    simp only [mergeLoop]
    rw [if_neg hc]
    by_cases h5 : 5 ≤ (acc ++ [t]).length
    · rw [if_pos h5]
      exact List.mem_append_right acc (List.mem_singleton.mpr rfl)
    · rw [if_neg h5]
      obtain ⟨e, he⟩ := mergeLoop_app post (acc ++ [t]) (seen ++ [tagKey t])
      rw [he]
      exact List.mem_append_left e (List.mem_append_right acc (List.mem_singleton.mpr rfl))
  | cons u pre' ih =>
    intro post acc seen hs hacc hpre hroom
    simp only [dedupCount] at hroom
    rw [List.cons_append]
    simp only [mergeLoop]
    by_cases hcu : seen.contains (tagKey u) = true
    · rw [if_pos hcu] at hroom
      rw [if_pos hcu, if_neg (by omega : ¬ 5 ≤ acc.length)]
      exact ih post acc seen hs hacc (fun v hv => hpre v (List.mem_cons_of_mem u hv)) hroom
    · rw [if_neg hcu] at hroom
      rw [if_neg hcu,
        if_neg (by simp only [List.length_append, List.length_cons, List.length_nil]; omega :
          ¬ 5 ≤ (acc ++ [u]).length)]
      refine ih post (acc ++ [u]) (seen ++ [tagKey u]) (by simp [hs]) ?_
        (fun v hv => hpre v (List.mem_cons_of_mem u hv)) ?_
      · intro v hv
        rcases List.mem_append.mp hv with h | h
        · exact hacc v h
        · rw [List.mem_singleton.mp h]
          exact hpre u (List.mem_cons_self u pre')
      · simp only [List.length_append, List.length_cons, List.length_nil]
        omega

/-- Anything the merge loop placed survives the backfill tiers and the
final truncation. -/
theorem resolveTags_of_mem_merge (raw ck : List String) (score : String → ℚ)
    (t : String)
    (h : t ∈ (mergeLoop (semanticTags score raw ++ countryTags ck raw) [] []).1) :
    t ∈ resolveTags raw ck score := by
  unfold resolveTags finishTags
  have hlen : (mergeLoop (semanticTags score raw ++ countryTags ck raw) [] []).1.length ≤ 5 :=
    mergeLoop_len _ [] [] (by decide)
  obtain ⟨e1, he1⟩ := backfillStep_app blocklist raw
    (mergeLoop (semanticTags score raw ++ countryTags ck raw) [] [])
  obtain ⟨e2, he2⟩ := backfillStep_app [] raw
    (backfillStep blocklist raw (mergeLoop (semanticTags score raw ++ countryTags ck raw) [] []))
  rw [he2, he1, List.append_assoc, List.take_append_eq_append_take,
    List.take_of_length_le hlen]
  exact List.mem_append_left _ h

/-- C8. A raw subject that substring-matches a region/era keyword
(case-insensitively), is not a `tagKey`-duplicate of any tag placed before
it in the merge order, and whose turn comes while fewer than 5 distinct
tags have been placed, appears in the final tag list.  `pre` is the list of
candidates the merge loop processes before `t`. -/
theorem C8_region_tags_survive (raw ck : List String) (score : String → ℚ)
    (t : String) (pre post : List String)
    (hreg : t ∈ raw ∧ ck.any (fun c => strContainsPy (tagKey t) (strLower c)) = true)
    (hitems : semanticTags score raw ++ countryTags ck raw = pre ++ t :: post)
    (hnodup : ∀ u ∈ pre, tagKey u ≠ tagKey t)
    (hroom : dedupCount [] pre < 5) :
    t ∈ resolveTags raw ck score := by
  apply resolveTags_of_mem_merge
  rw [hitems]
  exact mergeLoop_reach t pre post [] [] rfl
    (fun u hu => absurd hu (List.not_mem_nil u)) hnodup (by simpa using hroom)

/-- A scorer rejecting every subject, used to instantiate witnesses. -/
def scoreZero : String → ℚ := fun _ => 0

/-- Witness for C8: a region-flavoured subject that fails the semantic
filter still reaches the final tag list. -/
theorem C8_witness :
    ("Tokyo Japan" ∈ (["Tokyo Japan"] : List String) ∧
      (["Japan"] : List String).any
        (fun c => strContainsPy (tagKey "Tokyo Japan") (strLower c)) = true) ∧
    "Tokyo Japan" ∈ resolveTags ["Tokyo Japan"] ["Japan"] scoreZero :=
  ⟨by decide,
   C8_region_tags_survive ["Tokyo Japan"] ["Japan"] scoreZero "Tokyo Japan" [] []
     (by decide) (by decide) (fun u hu => absurd hu (List.not_mem_nil u)) (by decide)⟩

/-! Claim C3: the documented scenario -/

/-- A concrete scorer realizing the scenario's threshold assumptions. -/
def scoreC3 : String → ℚ :=
  fun t => if t = "Love stories" then 1 else if t = "Psychological fiction" then 1 else 0

/-- C3, counterexample.  With scores exactly as the claim assumes, the
resulting tag list *includes* "Fiction" (via the last-resort backfill),
refuting the claimed exclusion. -/
theorem C3_counterexample :
    ((1:ℚ)/2 ≤ scoreC3 "Love stories") ∧ ((1:ℚ)/2 ≤ scoreC3 "Psychological fiction") ∧
    scoreC3 "Japan" < 1/2 ∧ scoreC3 "Fiction" < 1/2 ∧
    "Japan" ∈ resolveTags ["Fiction", "Love stories", "Japan", "Psychological fiction"]
      country_keywords scoreC3 ∧
    "Fiction" ∈ resolveTags ["Fiction", "Love stories", "Japan", "Psychological fiction"]
      country_keywords scoreC3 := by
  refine ⟨?_, ?_, ?_, ?_, by decide, by decide⟩ <;>
    rw [← similarity_threshold_eq] <;> decide

/-- C3, amended.  For the scenario's raw subjects and the program's
region keywords (which contain "Japan"), under the claim's score
assumptions, the final tag list includes "Japan" — and also includes
"Fiction", appended by the last-resort backfill because fewer than five
tags were placed. -/
theorem C3_scenario_amended (score : String → ℚ)
    (h1 : (1:ℚ)/2 ≤ score "Love stories")
    (h2 : (1:ℚ)/2 ≤ score "Psychological fiction")
    (h3 : score "Japan" < 1/2) (h4 : score "Fiction" < 1/2) :
    "Japan" ∈ resolveTags ["Fiction", "Love stories", "Japan", "Psychological fiction"]
      country_keywords score ∧
    "Fiction" ∈ resolveTags ["Fiction", "Love stories", "Japan", "Psychological fiction"]
      country_keywords score := by
  have e : semanticTags score ["Fiction", "Love stories", "Japan", "Psychological fiction"] =
      ["Love stories", "Psychological fiction"] := by
    rw [← similarity_threshold_eq] at h1 h2 h3
    simp only [semanticTags]
    rw [if_pos (by decide : blocklist.contains (tagKey "Fiction") = true)]
    rw [if_neg (by decide : ¬ blocklist.contains (tagKey "Love stories") = true)]
    rw [if_pos h1]
    rw [if_neg (by decide : ¬ blocklist.contains (tagKey "Japan") = true)]
    rw [if_neg (not_le.mpr h3)]
    rw [if_neg (by decide : ¬ blocklist.contains (tagKey "Psychological fiction") = true)]
    rw [if_pos h2]
  unfold resolveTags
  rw [e]
  exact ⟨by decide, by decide⟩

/-- Witness for the amended C3. -/
theorem C3_witness :
    ((1:ℚ)/2 ≤ scoreC3 "Love stories") ∧
    ("Japan" ∈ resolveTags ["Fiction", "Love stories", "Japan", "Psychological fiction"]
        country_keywords scoreC3 ∧
      "Fiction" ∈ resolveTags ["Fiction", "Love stories", "Japan", "Psychological fiction"]
        country_keywords scoreC3) := by
  have h1 : (1:ℚ)/2 ≤ scoreC3 "Love stories" := by rw [← similarity_threshold_eq]; decide
  have h2 : (1:ℚ)/2 ≤ scoreC3 "Psychological fiction" := by
    rw [← similarity_threshold_eq]; decide
  have h3 : scoreC3 "Japan" < 1/2 := by rw [← similarity_threshold_eq]; decide
  have h4 : scoreC3 "Fiction" < 1/2 := by rw [← similarity_threshold_eq]; decide
  exact ⟨h1, C3_scenario_amended scoreC3 h1 h2 h3 h4⟩

/-! Lemmas about find_books_by_subject (C5, C6) -/

/-- The `"{title} by {author}"` result label. -/
def mkLabel (p : String × String) : String := p.1 ++ " by " ++ p.2

/-- Relation between the loop state of `find_books_by_subject` and the
title/author pairs accepted so far: `results` are their labels, `seen` their
lowered titles, no accepted title matches the excluded one, and accepted
titles are pairwise distinct case-insensitively. -/
def FRel (otl : String) (pairs : List (String × String))
    (results seen : List String) : Prop :=
  results = pairs.map mkLabel ∧
  seen = pairs.map (fun p => strLower p.1) ∧
  (∀ p ∈ pairs, strLower p.1 ≠ otl) ∧
  List.Pairwise (fun p q => strLower p.1 ≠ strLower q.1) pairs

theorem procDocs_rel (otl : String) (fic : Bool) (maxb : Nat) :
    ∀ docs results seen pairs, FRel otl pairs results seen →
      ∃ pairs2, FRel otl pairs2 (procDocs otl fic maxb docs results seen).1
        (procDocs otl fic maxb docs results seen).2 := by
  intro docs
  induction docs with
  | nil => exact fun results seen pairs h => ⟨pairs, h⟩
  | cons d rest ih =>
    intro results seen pairs h
    simp only [procDocs]
    split
    · exact ih results seen pairs h
    · split
      · exact ih results seen pairs h
      · split
        · exact ih results seen pairs h
        · split
          · exact ih results seen pairs h
          · split
            · exact ih results seen pairs h
            · rename_i ht hot hseen hed hgen
              have hnotin : strLower (mkTitle d) ∉ pairs.map (fun p => strLower p.1) := by
                intro hmem
                exact hseen ((contains_iff seen (strLower (mkTitle d))).mpr (h.2.1 ▸ hmem))
              have hfrel : FRel otl (pairs ++ [(mkTitle d, mkAuthor d)])
                  (results ++ [mkTitle d ++ " by " ++ mkAuthor d])
                  (seen ++ [strLower (mkTitle d)]) := by
                refine ⟨by simp [h.1, mkLabel], by simp [h.2.1], ?_, ?_⟩
                · intro p hp
                  rcases List.mem_append.mp hp with hp | hp
                  · exact h.2.2.1 p hp
                  · rw [List.mem_singleton.mp hp]; exact hot
                · refine List.pairwise_append.mpr
                    ⟨h.2.2.2, List.pairwise_singleton _ _, ?_⟩
                  intro p hp q hq
                  rw [List.mem_singleton.mp hq]
                  intro he
                  exact hnotin (List.mem_map.mpr ⟨p, hp, he⟩)
              split
              · exact ⟨pairs ++ [(mkTitle d, mkAuthor d)], hfrel⟩
              · exact ih _ _ (pairs ++ [(mkTitle d, mkAuthor d)]) hfrel

theorem queryLoop_rel (otl : String) (fic : Bool) (maxb : Nat) :
    ∀ qs results seen pairs, FRel otl pairs results seen →
      ∃ pairs2, FRel otl pairs2 (queryLoop otl fic maxb qs results seen).1
        (queryLoop otl fic maxb qs results seen).2 := by
  intro qs
  induction qs with
  | nil => exact fun results seen pairs h => ⟨pairs, h⟩
  | cons q rest ih =>
    intro results seen pairs h
    match q with
    | .fail => exact ih results seen pairs h
    | .docs ds =>
      simp only [queryLoop]
      obtain ⟨pairs2, h2⟩ := procDocs_rel otl fic maxb ds results seen pairs h
      split
      · exact ⟨pairs2, h2⟩
      · exact ih _ _ pairs2 h2

/-- Every run of `find_books_by_subject` is the label image of a list of
accepted title/author pairs with distinct, non-excluded titles. -/
theorem find_books_spec (qs : List QueryResult) (otl : String) (fic : Bool)
    (maxb : Nat) :
    ∃ pairs : List (String × String),
      find_books_by_subject qs otl fic maxb = pairs.map mkLabel ∧
      (∀ p ∈ pairs, strLower p.1 ≠ otl) ∧
      List.Pairwise (fun p q => strLower p.1 ≠ strLower q.1) pairs := by
  obtain ⟨pairs, h⟩ := queryLoop_rel otl fic maxb qs [] [] []
    ⟨rfl, rfl, fun p hp => absurd hp (List.not_mem_nil p), List.Pairwise.nil⟩
  refine ⟨pairs.take maxb, ?_, ?_, ?_⟩
  · unfold find_books_by_subject
    rw [h.1, List.map_take]
  · exact fun p hp => h.2.2.1 p (List.mem_of_mem_take hp)
  · exact List.Pairwise.sublist (List.take_sublist maxb pairs) h.2.2.2

/-- C5. No label returned by `find_books_by_subject` carries a title
that, compared case-insensitively, equals the excluded source title. -/
theorem C5_never_returns_excluded_title (qs : List QueryResult) (otl : String)
    (fic : Bool) (maxb : Nat) (l : String)
    (hl : l ∈ find_books_by_subject qs otl fic maxb) :
    ∃ ti au, l = ti ++ " by " ++ au ∧ strLower ti ≠ otl := by
  obtain ⟨pairs, he, hex, _⟩ := find_books_spec qs otl fic maxb
  rw [he] at hl
  obtain ⟨p, hp, hlab⟩ := List.mem_map.mp hl
  exact ⟨p.1, p.2, hlab.symm, hex p hp⟩

/-- Witness for C5: one concrete accepted result. -/
theorem C5_witness :
    ("Dune by Frank Herbert" ∈
      find_books_by_subject [.docs [⟨some "Dune", some ["Frank Herbert"], 3, none⟩]]
        "other" false 3) ∧
    ∃ ti au, "Dune by Frank Herbert" = ti ++ " by " ++ au ∧ strLower ti ≠ "other" :=
  ⟨by decide,
   C5_never_returns_excluded_title
     [.docs [⟨some "Dune", some ["Frank Herbert"], 3, none⟩]] "other" false 3
     "Dune by Frank Herbert" (by decide)⟩

/-- C6. `find_books_by_subject` returns at most `max_books` labels, and
the accepted titles behind the labels are pairwise distinct under
case-insensitive comparison. -/
theorem C6_bounded_and_distinct_titles (qs : List QueryResult) (otl : String)
    (fic : Bool) (maxb : Nat) :
    (find_books_by_subject qs otl fic maxb).length ≤ maxb ∧
    ∃ pairs : List (String × String),
      find_books_by_subject qs otl fic maxb = pairs.map mkLabel ∧
      List.Pairwise (fun p q => strLower p.1 ≠ strLower q.1) pairs := by
  refine ⟨?_, ?_⟩
  · unfold find_books_by_subject
    exact List.length_take_le maxb _
  · obtain ⟨pairs, he, _, hpw⟩ := find_books_spec qs otl fic maxb
    exact ⟨pairs, he, hpw⟩

/-- C7. The soft genre check: with non-empty subject text and a true
fiction hint, a candidate is rejected exactly when its subject text contains
neither "fiction" nor "novel"; with the hint false, exactly when it contains
"fiction"; with empty subject text the check rejects nothing. -/
theorem C7_genre_check (s : String) (fic : Bool) :
    (s ≠ "" → (genreReject true s = true ↔
      ¬ (strContainsPy s "fiction" = true ∨ strContainsPy s "novel" = true))) ∧
    (s ≠ "" → (genreReject false s = true ↔ strContainsPy s "fiction" = true)) ∧
    genreReject fic "" = false := by
  refine ⟨?_, ?_, rfl⟩
  · intro hs
    unfold genreReject
    rw [if_neg hs, if_pos rfl]
    cases hf : strContainsPy s "fiction" <;> cases hn : strContainsPy s "novel" <;> simp
  · intro hs
    unfold genreReject
    rw [if_neg hs]
    simp

/-- Witness for C7 at a concrete subject text. -/
theorem C7_witness :
    ("war novel" : String) ≠ "" ∧
    (genreReject true "war novel" = true ↔
      ¬ (strContainsPy "war novel" "fiction" = true ∨
         strContainsPy "war novel" "novel" = true)) :=
  ⟨by decide, (C7_genre_check "war novel" true).1 (by decide)⟩

/-! Substring lemmas for the fiction heuristic (C10) -/

theorem pfx_append (p : List Char) :
    ∀ a b, p.isPrefixOf a = true → p.isPrefixOf (a ++ b) = true := by
  induction p with
  | nil =>
    intro a b _
    rw [ List.isPrefixOf_iff_prefix]
    exact List.nil_prefix
  | cons x p' ih =>
    intro a b h
    cases a with
    | nil => simp [List.isPrefixOf] at h
    | cons y a' =>
      rw [List.cons_append]
      simp only [List.isPrefixOf, Bool.and_eq_true] at h ⊢
      exact ⟨h.1, ih a' b h.2⟩

theorem csub_nil_pat (hay : List Char) : containsSub [] hay = true := by
  cases hay <;> simp [containsSub, List.isPrefixOf, List.isEmpty]

theorem csub_app_right (pat : List Char) :
    ∀ a b, containsSub pat a = true → containsSub pat (a ++ b) = true := by
  intro a
  induction a with
  | nil =>
    intro b h
    simp only [containsSub] at h
    cases pat with
    | nil => exact csub_nil_pat b
    | cons x p' => simp [List.isEmpty] at h
  | cons x a' ih =>
    intro b h
    rw [List.cons_append]
    simp only [containsSub, Bool.or_eq_true] at h ⊢
    rcases h with h | h
    · exact Or.inl (pfx_append pat (x :: a') b h)
    · exact Or.inr (ih b h)

theorem csub_app_left (pat b : List Char) :
    ∀ a, containsSub pat b = true → containsSub pat (a ++ b) = true := by
  intro a
  induction a with
  | nil => exact fun h => h
  | cons x a' ih =>
    intro h
    rw [List.cons_append]
    cases b with
    | nil => simpa [containsSub, Bool.or_eq_true] using Or.inr (ih h)
    | cons y b' => simpa [containsSub, Bool.or_eq_true] using Or.inr (ih h)

theorem strLower_data (s : String) : (strLower s).data = s.data.map Char.toLower := rfl

theorem data_app (a b : String) : (a ++ b).data = a.data ++ b.data := rfl

/-- A substring of a member's lowered text is a substring of the lowered
space-join of the whole list. -/
theorem csub_of_mem_join (pat : List Char) (s : String) :
    ∀ l, s ∈ l → containsSub pat (strLower s).data = true →
      containsSub pat (strLower (joinWith " " l)).data = true := by
  intro l
  induction l with
  | nil => intro h; cases h
  | cons x rest ih =>
    intro hmem hc
    rcases List.mem_cons.mp hmem with rfl | hmem'
    · cases rest with
      | nil => exact hc
      | cons y rest' =>
        show containsSub pat (strLower (s ++ " " ++ joinWith " " (y :: rest'))).data = true
        rw [show s ++ " " ++ joinWith " " (y :: rest') =
          s ++ (" " ++ joinWith " " (y :: rest')) from by rw [String.append_assoc]]
        rw [strLower_data, data_app, List.map_append]
        exact csub_app_right pat _ _ hc
    · cases rest with
      | nil => cases hmem'
      | cons y rest' =>
        show containsSub pat (strLower (x ++ " " ++ joinWith " " (y :: rest'))).data = true
        rw [show x ++ " " ++ joinWith " " (y :: rest') =
          (x ++ " ") ++ joinWith " " (y :: rest') from rfl]
        rw [strLower_data, data_app, List.map_append]
        exact csub_app_left pat _ _ (ih hmem' hc)

/-! Claim C10: the fiction hint -/

/-- C10. On the full success path, the fiction hint returned by
`get_book_data_from_isbn` is true iff the lowered space-join of the raw
subjects contains "fiction" and does not contain "nonfiction"; in
particular a single subject containing "nonfiction" forces the hint false. -/
theorem C10_fiction_hint (isbn : String) (ck : List String) (score : String → ℚ)
    (ed : EditionData) (wd : WorkData) (w : WorkRef) (ws : List WorkRef) (k : String)
    (hw : ed.works = w :: ws) (hk : w.key = some k) :
    ((get_book_data_from_isbn isbn ck score (.resp 200 ed) (.resp 200 wd)).2.2.2 = true ↔
      (strContainsPy (strLower (joinWith " " wd.subjects)) "fiction" = true ∧
        ¬ strContainsPy (strLower (joinWith " " wd.subjects)) "nonfiction" = true)) ∧
    (∀ s ∈ wd.subjects, strContainsPy (strLower s) "nonfiction" = true →
      (get_book_data_from_isbn isbn ck score (.resp 200 ed) (.resp 200 wd)).2.2.2 = false) := by
  have hfic : (get_book_data_from_isbn isbn ck score (.resp 200 ed) (.resp 200 wd)).2.2.2 =
      isFictionHeuristic wd.subjects := by
    simp [get_book_data_from_isbn, hw, hk]
  constructor
  · rw [hfic]
    unfold isFictionHeuristic
    cases hA : strContainsPy (strLower (joinWith " " wd.subjects)) "fiction" <;>
      cases hB : strContainsPy (strLower (joinWith " " wd.subjects)) "nonfiction" <;> simp
  · intro s hs hcs
    rw [hfic]
    have hj : strContainsPy (strLower (joinWith " " wd.subjects)) "nonfiction" = true :=
      csub_of_mem_join ("nonfiction".data) s wd.subjects hs hcs
    unfold isFictionHeuristic
    rw [hj]
    simp

/-- Witness for C10: one "Nonfiction" subject makes the hint false. -/
theorem C10_witness :
    (get_book_data_from_isbn "i" [] scoreZero
      (.resp 200 ⟨some "T", [⟨some "K"⟩]⟩)
      (.resp 200 ⟨["Nonfiction", "History"]⟩)).2.2.2 = false :=
  (C10_fiction_hint "i" [] scoreZero ⟨some "T", [⟨some "K"⟩]⟩ ⟨["Nonfiction", "History"]⟩
      ⟨some "K"⟩ [] "K" rfl rfl).2 "Nonfiction" (by decide) (by decide)

/-! Claim C9: failure handling of the pipeline -/

/-- On every degraded path after a successful edition fetch (failed work
fetch, non-200 work status, no linked work, or a work entry without key),
`get_book_data_from_isbn` returns the resolved title and an empty tag set. -/
theorem get_book_degraded (isbn : String) (ck : List String) (score : String → ℚ)
    (ed : EditionData) (wf : Fetch WorkData)
    (h : wf = Fetch.err ∨ (∃ c wd, wf = Fetch.resp c wd ∧ c ≠ 200) ∨ ed.works = [] ∨
      (∃ w ws, ed.works = w :: ws ∧ w.key = none)) :
    get_book_data_from_isbn isbn ck score (.resp 200 ed) wf =
      (some (resolvedTitle isbn ed), [], strLower (resolvedTitle isbn ed), false) := by
  rcases h with rfl | ⟨c, wd, rfl, hc⟩ | hworks | ⟨w, ws, hworks, hkey⟩
  · cases hw2 : ed.works with
    | nil => simp [get_book_data_from_isbn, hw2]
    | cons w ws =>
      cases hk2 : w.key with
      | none => simp [get_book_data_from_isbn, hw2, hk2]
      | some k => simp [get_book_data_from_isbn, hw2, hk2]
  · cases hw2 : ed.works with
    | nil => simp [get_book_data_from_isbn, hw2]
    | cons w ws =>
      cases hk2 : w.key with
      | none => simp [get_book_data_from_isbn, hw2, hk2]
      | some k => simp [get_book_data_from_isbn, hw2, hk2, if_pos hc]
  · simp [get_book_data_from_isbn, hworks]
  · simp [get_book_data_from_isbn, hworks, hkey]

/-- C9. A failed canonical edition fetch (exception or non-200) yields
no graph at all; a resolved (non-empty) title whose work lookup degrades
(failed/non-200 work fetch, or no linked work) yields the single-root
graph. -/
theorem C9_failure_handling (isbn : String) (score : String → ℚ)
    (ef : Fetch EditionData) (wf : Fetch WorkData) (tq : String → List QueryResult) :
    ((ef = Fetch.err ∨ ∃ c ed, ef = Fetch.resp c ed ∧ c ≠ 200) →
      build_similarity_graph isbn score ef wf tq = none) ∧
    (∀ ed, ef = Fetch.resp 200 ed → resolvedTitle isbn ed ≠ "" →
      (wf = Fetch.err ∨ (∃ c wd, wf = Fetch.resp c wd ∧ c ≠ 200) ∨ ed.works = [] ∨
        (∃ w ws, ed.works = w :: ws ∧ w.key = none)) →
      build_similarity_graph isbn score ef wf tq =
        some (⟨[(resolvedTitle isbn ed, "book")], []⟩, resolvedTitle isbn ed)) := by
  constructor
  · rintro (rfl | ⟨c, ed, rfl, hc⟩)
    · rfl
    · simp only [build_similarity_graph, get_book_data_from_isbn]
      rw [if_pos hc]
  · rintro ed rfl ht hcase
    have hget := get_book_degraded isbn country_keywords score ed wf hcase
    simp only [build_similarity_graph, hget]
    rw [if_neg ht]
    rfl

/-- Witness for C9: both failure modes at concrete inputs. -/
theorem C9_witness :
    build_similarity_graph "i" scoreZero Fetch.err Fetch.err (fun _ => []) = none ∧
    build_similarity_graph "i" scoreZero (.resp 200 ⟨some "T", []⟩) Fetch.err (fun _ => []) =
      some (⟨[(resolvedTitle "i" ⟨some "T", []⟩, "book")], []⟩, resolvedTitle "i" ⟨some "T", []⟩) :=
  ⟨(C9_failure_handling "i" scoreZero Fetch.err Fetch.err (fun _ => [])).1 (Or.inl rfl),
   (C9_failure_handling "i" scoreZero (.resp 200 ⟨some "T", []⟩) Fetch.err (fun _ => [])).2
     ⟨some "T", []⟩ rfl (by decide) (Or.inr (Or.inr (Or.inl rfl)))⟩

/-! Graph invariants (C4) -/

/-- A display string that is a node of the graph (of whatever kind). -/
def isNodeName (g : Graph) (n : String) : Prop := ∃ ty, (n, ty) ∈ g.nodes

theorem addNode_names (g : Graph) (n ty m : String) (h : isNodeName g m) :
    isNodeName (addNode g n ty) m := by
  obtain ⟨tm, hm⟩ := h
  unfold addNode
  split
  · by_cases hmn : m = n
    · subst hmn
      exact ⟨ty, List.mem_map.mpr ⟨(m, tm), hm, by simp⟩⟩
    · exact ⟨tm, List.mem_map.mpr ⟨(m, tm), hm, by simp [hmn]⟩⟩
  · exact ⟨tm, List.mem_append_left _ hm⟩

theorem addNode_self (g : Graph) (n ty : String) : isNodeName (addNode g n ty) n := by
  unfold addNode
  split
  · rename_i hany
    obtain ⟨p, hp, hpn⟩ := List.any_eq_true.mp hany
    have hpn' : p.1 = n := of_decide_eq_true hpn
    exact ⟨ty, List.mem_map.mpr ⟨p, hp, by simp [hpn']⟩⟩
  · exact ⟨ty, List.mem_append_right _ (List.mem_singleton.mpr rfl)⟩

theorem addEdge_nodes (g : Graph) (u v : String) : (addEdge g u v).nodes = g.nodes := by
  unfold addEdge; split <;> rfl

theorem addEdge_names (g : Graph) (u v m : String) (h : isNodeName g m) :
    isNodeName (addEdge g u v) m := by
  obtain ⟨tm, hm⟩ := h
  exact ⟨tm, by rw [addEdge_nodes g u v]; exact hm⟩

/-- Every node's kind is determined by whether its name is a final tag. -/
def NodesOk (tags : List String) (g : Graph) : Prop :=
  ∀ p ∈ g.nodes, (p.1 ∈ tags → p.2 = "theme") ∧ (p.1 ∉ tags → p.2 = "book")

/-- Every edge runs from a non-tag name to a tag name, both being nodes. -/
def EdgesOk (tags : List String) (g : Graph) : Prop :=
  ∀ e ∈ g.edges, e.1 ∉ tags ∧ e.2 ∈ tags ∧ isNodeName g e.1 ∧ isNodeName g e.2

def GInv (tags : List String) (g : Graph) : Prop := NodesOk tags g ∧ EdgesOk tags g

theorem addNode_inv (tags : List String) (g : Graph) (n ty : String)
    (hk : (n ∈ tags ∧ ty = "theme") ∨ (n ∉ tags ∧ ty = "book"))
    (h : GInv tags g) : GInv tags (addNode g n ty) := by
  have hgoal : ((n : String), ty).1 ∈ tags → ((n : String), ty).2 = "theme" := by
    intro hn
    rcases hk with ⟨_, rfl⟩ | ⟨hn', _⟩
    · rfl
    · exact absurd hn hn'
  have hgoal2 : ((n : String), ty).1 ∉ tags → ((n : String), ty).2 = "book" := by
    intro hn
    rcases hk with ⟨hn', _⟩ | ⟨_, rfl⟩
    · exact absurd hn' hn
    · rfl
  constructor
  · intro p hp
    unfold addNode at hp
    split at hp
    · obtain ⟨q, hq, hqe⟩ := List.mem_map.mp hp
      by_cases hqn : q.1 = n
      · rw [if_pos hqn] at hqe
        rw [← hqe]
        exact ⟨hgoal, hgoal2⟩
      · rw [if_neg hqn] at hqe
        rw [← hqe]
        exact h.1 q hq
    · rcases List.mem_append.mp hp with hp | hp
      · exact h.1 p hp
      · rw [List.mem_singleton.mp hp]
        exact ⟨hgoal, hgoal2⟩
  · have hedges : (addNode g n ty).edges = g.edges := by unfold addNode; split <;> rfl
    intro e he
    rw [hedges] at he
    obtain ⟨h1, h2, h3, h4⟩ := h.2 e he
    exact ⟨h1, h2, addNode_names g n ty e.1 h3, addNode_names g n ty e.2 h4⟩

theorem addEdge_inv (tags : List String) (g : Graph) (u v : String)
    (h : GInv tags g) (hu : u ∉ tags) (hv : v ∈ tags)
    (hnu : isNodeName g u) (hnv : isNodeName g v) : GInv tags (addEdge g u v) := by
  constructor
  · intro p hp
    rw [addEdge_nodes g u v] at hp
    exact h.1 p hp
  · intro e he
    unfold addEdge at he
    split at he
    · obtain ⟨h1, h2, h3, h4⟩ := h.2 e he
      exact ⟨h1, h2, addEdge_names g u v e.1 h3, addEdge_names g u v e.2 h4⟩
    · rcases List.mem_append.mp he with he | he
      · obtain ⟨h1, h2, h3, h4⟩ := h.2 e he
        exact ⟨h1, h2, addEdge_names g u v e.1 h3, addEdge_names g u v e.2 h4⟩
      · rw [List.mem_singleton.mp he]
        exact ⟨hu, hv, addEdge_names g u v u hnu, addEdge_names g u v v hnv⟩

theorem buildPhase1_inv (tags : List String) (title : String) (htitle : title ∉ tags) :
    ∀ l g, GInv tags g → (∀ x ∈ l, x ∈ tags) → isNodeName g title →
      GInv tags (buildPhase1 g title l) ∧
      (∀ m, isNodeName g m → isNodeName (buildPhase1 g title l) m) ∧
      (∀ x ∈ l, isNodeName (buildPhase1 g title l) x) := by
  intro l
  induction l with
  | nil =>
    intro g hg _ _
    exact ⟨hg, fun m hm => hm, fun x hx => absurd hx (List.not_mem_nil x)⟩
  | cons tag rest ih =>
    intro g hg hsub hnt
    have htag : tag ∈ tags := hsub tag (List.mem_cons_self tag rest)
    have hg1 : GInv tags (addNode g tag "theme") :=
      addNode_inv tags g tag "theme" (Or.inl ⟨htag, rfl⟩) hg
    have hnt1 : isNodeName (addNode g tag "theme") title := addNode_names g tag "theme" title hnt
    have hntag : isNodeName (addNode g tag "theme") tag := addNode_self g tag "theme"
    have hg2 : GInv tags (addEdge (addNode g tag "theme") title tag) :=
      addEdge_inv tags _ title tag hg1 htitle htag hnt1 hntag
    simp only [buildPhase1]
    obtain ⟨ihg, ihmono, ihall⟩ := ih (addEdge (addNode g tag "theme") title tag) hg2
      (fun x hx => hsub x (List.mem_cons_of_mem tag hx))
      (addEdge_names _ title tag title hnt1)
    refine ⟨ihg, ?_, ?_⟩
    · intro m hm
      exact ihmono m (addEdge_names _ title tag m (addNode_names g tag "theme" m hm))
    · intro x hx
      rcases List.mem_cons.mp hx with rfl | hx'
      · exact ihmono x (addEdge_names _ title x x hntag)
      · exact ihall x hx'

theorem addRelated_inv (tags : List String) (tag : String) (htag : tag ∈ tags) :
    ∀ books g seen, GInv tags g → isNodeName g tag → (∀ b ∈ books, b ∉ tags) →
      GInv tags (addRelated tag books g seen).1 ∧
      (∀ m, isNodeName g m → isNodeName (addRelated tag books g seen).1 m) := by
  intro books
  induction books with
  | nil => exact fun g seen hg _ _ => ⟨hg, fun m hm => hm⟩
  | cons b rest ih =>
    intro g seen hg hnt hb
    simp only [addRelated]
    split
    · exact ih g seen hg hnt (fun x hx => hb x (List.mem_cons_of_mem b hx))
    · have hbnot : b ∉ tags := hb b (List.mem_cons_self b rest)
      have hg1 := addNode_inv tags g b "book" (Or.inr ⟨hbnot, rfl⟩) hg
      have hnb : isNodeName (addNode g b "book") b := addNode_self g b "book"
      have hnt1 : isNodeName (addNode g b "book") tag := addNode_names g b "book" tag hnt
      have hg2 := addEdge_inv tags _ b tag hg1 hbnot htag hnb hnt1
      obtain ⟨ihg, ihm⟩ := ih _ (seen ++ [b]) hg2 (addEdge_names _ b tag tag hnt1)
        (fun x hx => hb x (List.mem_cons_of_mem b hx))
      exact ⟨ihg, fun m hm => ihm m (addEdge_names _ b tag m (addNode_names g b "book" m hm))⟩

theorem buildPhase2_inv (tags : List String) (otl : String) (fic : Bool)
    (tq : String → List QueryResult)
    (hlab : ∀ tag ∈ tags, ∀ l ∈ find_books_by_subject (tq tag) otl fic 3, l ∉ tags) :
    ∀ l g seen, GInv tags g → (∀ x ∈ l, x ∈ tags) → (∀ x ∈ l, isNodeName g x) →
      GInv tags (buildPhase2 otl fic tq l g seen) := by
  intro l
  induction l with
  | nil => exact fun g seen hg _ _ => hg
  | cons tag rest ih =>
    intro g seen hg hsub hn
    have htag : tag ∈ tags := hsub tag (List.mem_cons_self tag rest)
    simp only [buildPhase2]
    obtain ⟨hg2, hmono⟩ := addRelated_inv tags tag htag
      (find_books_by_subject (tq tag) otl fic 3) g seen hg
      (hn tag (List.mem_cons_self tag rest)) (hlab tag htag)
    exact ih _ _ hg2 (fun x hx => hsub x (List.mem_cons_of_mem tag hx))
      (fun x hx => hmono x (hn x (List.mem_cons_of_mem tag hx)))

theorem nodeType_of_inv (tags : List String) (g : Graph) (hg : NodesOk tags g)
    (n : String) (hn : isNodeName g n) :
    nodeType g n = some (if n ∈ tags then "theme" else "book") := by
  obtain ⟨tn, hmem⟩ := hn
  unfold nodeType
  have hsome : (g.nodes.find? (fun p => p.1 == n)).isSome := by
    rw [List.find?_isSome]
    exact ⟨(n, tn), hmem, by simp⟩
  obtain ⟨q, hq⟩ := Option.isSome_iff_exists.mp hsome
  rw [hq]
  have hqn : q.1 = n := by simpa using List.find?_some hq
  have hx := hg q (List.mem_of_find?_eq_some hq)
  by_cases hnt : n ∈ tags
  · rw [if_pos hnt]
    simp only [Option.map_some']
    exact congrArg some (hx.1 (by rw [hqn]; exact hnt))
  · rw [if_neg hnt]
    simp only [Option.map_some']
    exact congrArg some (hx.2 (by rw [hqn]; exact hnt))

/-- C4 (amended).  Provided the resolved title is not itself one of the
final tags and no related-book label coincides with a final tag — the
display-string collisions the spec's §9 declares out of scope — every edge
of the produced graph connects a Book node to a Theme node. -/
theorem C4_edges_bipartite (isbn : String) (score : String → ℚ)
    (ef : Fetch EditionData) (wf : Fetch WorkData) (tq : String → List QueryResult)
    (title : String) (tags : List String) (otl : String) (fic : Bool)
    (hget : get_book_data_from_isbn isbn country_keywords score ef wf =
      (some title, tags, otl, fic))
    (htitle : title ∉ tags)
    (hlab : ∀ tag ∈ tags, ∀ l ∈ find_books_by_subject (tq tag) otl fic 3, l ∉ tags)
    (g : Graph) (t2 : String)
    (hbuild : build_similarity_graph isbn score ef wf tq = some (g, t2)) :
    ∀ e ∈ g.edges, GoodEdge g e := by
  simp only [build_similarity_graph, hget] at hbuild
  by_cases hte : title = ""
  · rw [if_pos hte] at hbuild
    simp at hbuild
  · rw [if_neg hte] at hbuild
    have hpair := Option.some.inj hbuild
    have hgeq : g = buildPhase2 otl fic tq tags
        (buildPhase1 (addNode ⟨[], []⟩ title "book") title tags) [title] :=
      (congrArg Prod.fst hpair).symm
    have hg0 : GInv tags (addNode ⟨[], []⟩ title "book") := by
      constructor
      · intro p hp
        have hp' : p = (title, "book") := by simpa [addNode] using hp
        rw [hp']
        exact ⟨fun h => absurd h htitle, fun _ => rfl⟩
      · intro e he
        simp [addNode] at he
    obtain ⟨hg1, _, hall1⟩ := buildPhase1_inv tags title htitle tags
      (addNode ⟨[], []⟩ title "book") hg0 (fun x hx => hx)
      (addNode_self _ title "book")
    have hg2 := buildPhase2_inv tags otl fic tq hlab tags _ [title] hg1
      (fun x hx => hx) hall1
    rw [hgeq]
    intro e he
    obtain ⟨h1, h2, h3, h4⟩ := hg2.2 e he
    refine Or.inl ⟨?_, ?_⟩
    · have h5 := nodeType_of_inv tags _ hg2.1 e.1 h3
      rw [if_neg h1] at h5
      exact h5
    · have h5 := nodeType_of_inv tags _ hg2.1 e.2 h4
      rw [if_pos h2] at h5
      exact h5

/-- C4, counterexample.  A raw subject equal to the resolved title makes
`add_node(tag, type="theme")` overwrite the root Book node and produces a
self-loop whose single endpoint is a Theme node: an edge not connecting a
Book node to a Theme node. -/
theorem C4_counterexample :
    build_similarity_graph "isbn" scoreZero (.resp 200 ⟨some "Japan", [⟨some "W1"⟩]⟩)
      (.resp 200 ⟨["Japan"]⟩) (fun _ => []) =
      some (⟨[("Japan", "theme")], [("Japan", "Japan")]⟩, "Japan") ∧
    ("Japan", "Japan") ∈ (Graph.mk [("Japan", "theme")] [("Japan", "Japan")]).edges ∧
    ¬ GoodEdge ⟨[("Japan", "theme")], [("Japan", "Japan")]⟩ ("Japan", "Japan") :=
  ⟨by decide, by decide, by decide⟩

/-- Witness for the amended C4 on a collision-free concrete run. -/
theorem C4_witness :
    GoodEdge ⟨[("Book1", "book"), ("Japan", "theme"), ("Other by A", "book")],
      [("Book1", "Japan"), ("Other by A", "Japan")]⟩ ("Book1", "Japan") :=
  C4_edges_bipartite "i" scoreZero (.resp 200 ⟨some "Book1", [⟨some "W1"⟩]⟩)
    (.resp 200 ⟨["Japan"]⟩) (fun _ => [.docs [⟨some "Other", some ["A"], 2, none⟩]])
    "Book1" ["Japan"] "book1" false (by decide) (by decide) (by decide)
    ⟨[("Book1", "book"), ("Japan", "theme"), ("Other by A", "book")],
      [("Book1", "Japan"), ("Other by A", "Japan")]⟩ "Book1" (by decide)
    ("Book1", "Japan") (by decide)
